import Mathlib

/-!
Shallow embedding of the `esp32_ota` OTA update engine
(`esp32_ota/ota/blockdev_writer.py`, `esp32_ota/ota/writer.py`,
`esp32_ota/ota/status.py`) and verification of its specification claims.

Modelling conventions:
* Bytes are `Nat`; flash contents and buffers are `List Nat`.
* Python exceptions are modelled by returning `Except Err _` (or `Option Err`)
  together with the state as mutated up to the raise point.  In the Python
  source no mutation ever precedes a `raise` inside the same function, and the
  embedding mirrors the exact order of checks and mutations.
* The SHA-256 accumulator is modelled as the exact stream of bytes fed to it
  (`sha : List Nat`); the final digest is an injective function of that
  stream, so digest equality/inequality is modelled as equality/inequality of
  the fed byte streams.
* The raw device behind `Blockdev` (an `esp32.Partition`) is modelled by its
  byte contents: `writeblocks`/`readblocks` act on a `blocksize * blockcount`
  byte array, `writeblocks` without an offset on whole blocks erases and
  rewrites exactly the covered blocks, and the `IOCTL_BLOCK_ERASE` ioctl sets
  a block to `0xFF`.  Out-of-range accesses raise `OSError`, modelled as
  `Err.devRange`.
-/

namespace EspOta

deriving instance DecidableEq for Except

/-- Error kinds raised by the Python source: the two alignment `ValueError`s of
`Blockdev.write`/`Blockdev.readinto` (carrying the offending block index), the
device-level `OSError` for out-of-range block access, the `ZeroDivisionError`
from `divmod(_, 0)`, the constructor `ValueError`s of `BufferedBlockdev` and
`BlockDevWriter`, the three integrity `ValueError`s of
`BlockDevWriter.close`/`verify`, and the `OSError`s of the partition layer. -/
inductive Err where
  | alignPos (block : Nat)
  | alignLen (block : Nat)
  | devRange
  | divZero
  | sizeInvalid
  | lengthTooBig
  | lengthMismatch
  | shaMismatch
  | verifyFail
  | noOta
  | otaUnsupported
  | bootInvalid
deriving DecidableEq

/-- Overwrite the slice of `l` starting at `start` with `data`
(Python slice assignment; used for block writes into flash contents and
for copies into the write buffer). -/
def listWrite (l : List Nat) (start : Nat) (data : List Nat) : List Nat :=
  l.take start ++ data ++ l.drop (start + data.length)

/-- Read `n` bytes of `l` starting at `start`. -/
def listRead (l : List Nat) (start n : Nat) : List Nat :=
  (l.drop start).take n

theorem listWrite_length (l d : List Nat) (s : Nat) (h : s + d.length ≤ l.length) :
    (listWrite l s d).length = l.length := by
  simp [listWrite]
  omega

theorem listWrite_take_full (l d : List Nat) (s : Nat) (hs : s ≤ l.length) :
    (listWrite l s d).take (s + d.length) = l.take s ++ d := by
  unfold listWrite
  rw [List.append_assoc]
  have hlen : (l.take s).length = s := by simp; omega
  calc ((l.take s) ++ (d ++ l.drop (s + d.length))).take (s + d.length)
      = ((l.take s) ++ (d ++ l.drop (s + d.length))).take ((l.take s).length + d.length) := by
        rw [hlen]
    _ = l.take s ++ (d ++ l.drop (s + d.length)).take d.length := List.take_append d.length
    _ = l.take s ++ d := by
        rw [List.take_append_eq_append_take]
        simp

theorem listWrite_take_self (l d : List Nat) (s : Nat) (hs : s ≤ l.length) :
    (listWrite l s d).take s = l.take s := by
  unfold listWrite
  rw [List.append_assoc, List.take_append_eq_append_take]
  have hlen : (l.take s).length = s := by simp; omega
  rw [hlen, Nat.sub_self]
  simp [List.take_take]

theorem listWrite_drop (l d : List Nat) (s : Nat) (hs : s ≤ l.length) :
    (listWrite l s d).drop (s + d.length) = l.drop (s + d.length) := by
  unfold listWrite
  have hlen : (l.take s).length = s := by simp; omega
  rw [List.append_assoc, List.drop_append_eq_append_drop,
    List.drop_append_eq_append_drop, hlen]
  have hA : (l.take s).drop (s + d.length) = [] :=
    List.drop_eq_nil_of_le (by omega)
  have hd : s + d.length - s = d.length := by omega
  rw [hA, hd, List.drop_length]
  simp

/-- Composing a one-byte slice write at `p` with a slice write at `p + 1`
equals a single slice write at `p` (used to relate the chunked buffer copy of
`BufferedBlockdev.write` to a byte-at-a-time copy). -/
theorem listWrite_cons (l : List Nat) (p x : Nat) (xs : List Nat) (h : p < l.length) :
    listWrite (listWrite l p [x]) (p + 1) xs = listWrite l p (x :: xs) := by
  have hS : listWrite l p [x] = (l.take p ++ [x]) ++ l.drop (p + 1) := by
    simp [listWrite]
  have hlen2 : (l.take p ++ [x]).length = p + 1 := by
    simp [List.length_take]
    omega
  have htake : ((l.take p ++ [x]) ++ l.drop (p + 1)).take (p + 1) = l.take p ++ [x] := by
    rw [← hlen2]
    exact List.take_left _ _
  have hdrop : ((l.take p ++ [x]) ++ l.drop (p + 1)).drop (p + 1 + xs.length)
      = l.drop (p + 1 + xs.length) := by
    rw [List.drop_append_eq_append_drop, hlen2]
    have h1 : (l.take p ++ [x]).drop (p + 1 + xs.length) = [] :=
      List.drop_eq_nil_of_le (by omega)
    rw [h1, List.drop_drop]
    simp only [List.nil_append]
    congr 1
    omega
  rw [show listWrite (listWrite l p [x]) (p + 1) xs
      = (listWrite l p [x]).take (p + 1) ++ xs
        ++ (listWrite l p [x]).drop (p + 1 + xs.length) from by simp [listWrite]]
  rw [hS, htake, hdrop]
  unfold listWrite
  have h5 : p + (x :: xs).length = p + 1 + xs.length := by simp; omega
  rw [h5]
  simp

/-! Model of `Blockdev` (blockdev_writer.py lines 17-73): a wrapper around a
raw block device, keeping a write cursor `pos` and the number of bytes written
`end_` (Python attribute `end`). -/

structure BD where
  blocksize : Nat
  blockcount : Nat
  contents : List Nat
  pos : Nat
  end_ : Nat
deriving DecidableEq

/-- Number of bytes written to the device (`Blockdev.size`). -/
def BD.size (st : BD) : Nat := st.end_

/-- Total byte capacity of the device. -/
def BD.capacity (st : BD) : Nat := st.blocksize * st.blockcount

/-- Model of `device.writeblocks(block, data[, offset=0])`: writes `data` at
byte position `block * blocksize`; out-of-range access raises `OSError`. -/
def devWriteblocks (st : BD) (block : Nat) (data : List Nat) : BD × Option Err :=
  if block * st.blocksize + data.length ≤ st.capacity then
    ({ st with contents := listWrite st.contents (block * st.blocksize) data }, none)
  else (st, some .devRange)

/-- Model of `device.ioctl(IOCTL_BLOCK_ERASE, block)`: erases one block to
`0xFF`; out-of-range access raises `OSError`. -/
def devErase (st : BD) (block : Nat) : BD × Option Err :=
  if block < st.blockcount then
    ({ st with contents :=
        listWrite st.contents (block * st.blocksize) (List.replicate st.blocksize 255) }, none)
  else (st, some .devRange)

/-- Model of `Blockdev.write` (lines 32-49).  `divmod(self.pos, self.blocksize)`
raises `ZeroDivisionError` when `blocksize = 0` (modelled as `Err.divZero`);
a non-zero remainder raises the position-alignment `ValueError`; a length that
is a multiple of the blocksize is written as whole blocks; a length shorter
than one block erases the block and writes a partial block; any other length
raises the length-alignment `ValueError`.  On success `pos` and `end` advance
by `len(data)` and the call returns `len(data)`. -/
def bdWrite (st : BD) (data : List Nat) : BD × Except Err Nat :=
  if st.blocksize = 0 then (st, .error .divZero)
  else if st.pos % st.blocksize ≠ 0 then
    (st, .error (.alignPos (st.pos / st.blocksize)))
  else if data.length % st.blocksize = 0 then
    match devWriteblocks st (st.pos / st.blocksize) data with
    | (st1, none) =>
      ({ st1 with pos := st.pos + data.length, end_ := st.pos + data.length },
        .ok data.length)
    | (st1, some e) => (st1, .error e)
  else if data.length < st.blocksize then
    match devErase st (st.pos / st.blocksize) with
    | (st1, none) =>
      match devWriteblocks st1 (st.pos / st.blocksize) data with
      | (st2, none) =>
        ({ st2 with pos := st.pos + data.length, end_ := st.pos + data.length },
          .ok data.length)
      | (st2, some e) => (st2, .error e)
    | (st1, some e) => (st1, .error e)
  else (st, .error (.alignLen (st.pos / st.blocksize)))

/-- Model of `Blockdev.readinto` (lines 53-69) reading into a buffer of length
`buflen`: returns 0 at the high-water mark, raises the alignment `ValueError`s
otherwise when misaligned, and otherwise transfers bytes: both source branches
(`ln <= remaining` full read, `ln = remaining` tail read) transfer exactly
`min buflen (end_ - pos)` bytes from the flash contents at `pos` into the
buffer and return that count.  `end_ - pos` is `Nat` subtraction; on states
with `pos > end_` (unreachable, since `pos` only moves within `[0, end_]`)
the Python arithmetic would go negative instead. -/
def bdReadinto (st : BD) (buflen : Nat) : BD × Except Err (Nat × List Nat) :=
  if st.pos = st.end_ then (st, .ok (0, []))
  else if st.blocksize = 0 then (st, .error .divZero)
  else if st.pos % st.blocksize ≠ 0 then
    (st, .error (.alignPos (st.pos / st.blocksize)))
  else if buflen % st.blocksize ≠ 0 ∧ buflen > st.blocksize then
    (st, .error (.alignLen (st.pos / st.blocksize)))
  else
    ({ st with pos := st.pos + min buflen (st.end_ - st.pos) },
      .ok (min buflen (st.end_ - st.pos),
        listRead st.contents st.pos (min buflen (st.end_ - st.pos))))

/-- Model of `Blockdev.seek` (lines 71-73); only non-negative offsets occur in
the source (`seek(0)`), so the offset is a `Nat`. -/
def bdSeek (st : BD) (offset : Nat) (whence : Nat) : BD :=
  { st with pos := (if whence = 0 then 0 else if whence = 1 then st.pos else st.end_) + offset }

/-! Model of `BufferedBlockdev` (lines 77-114): the buffer `_mv` of fixed
length (`buf`), the fill mark `_bufp` (`bufp`) and the SHA-256 accumulator
`sha`, modelled as the stream of bytes fed to it. -/

structure BB where
  bd : BD
  buf : List Nat
  bufp : Nat
  sha : List Nat
deriving DecidableEq

/-- Model of `BufferedBlockdev.__init__` for a fresh wrapper around a device
with the given geometry and contents (`pos = end = 0`), with the default
buffer size (`size=0`, so one blocksize). -/
def bbFresh (bs bc : Nat) (contents : List Nat) : BB :=
  { bd := { blocksize := bs, blockcount := bc, contents := contents, pos := 0, end_ := 0 },
    buf := List.replicate bs 0, bufp := 0, sha := [] }

/-- Model of `BufferedBlockdev.__init__` (lines 78-85) including its argument
checks: `size = size or blocksize`, then `size < blocksize` or
`size % blocksize != 0` raises `ValueError` (with `blocksize = 0` the modulo
raises `ZeroDivisionError`). -/
def bbInit (bs bc : Nat) (contents : List Nat) (size : Nat) : Except Err BB :=
  if bs = 0 then .error .divZero
  else if (if size = 0 then bs else size) < bs
      ∨ (if size = 0 then bs else size) % bs ≠ 0 then .error .sizeInvalid
  else .ok { bd := { blocksize := bs, blockcount := bc, contents := contents,
                     pos := 0, end_ := 0 },
             buf := List.replicate (if size = 0 then bs else size) 0,
             bufp := 0, sha := [] }

/-- Model of `BufferedBlockdev.flush` (lines 87-92): when the buffer is
non-empty, write its filled prefix to the device, feed those bytes to the
digest, and reset the fill mark; otherwise do nothing. -/
def bbFlush (st : BB) : BB × Option Err :=
  if st.bufp ≠ 0 then
    match bdWrite st.bd (st.buf.take st.bufp) with
    | (bd1, .ok _) =>
      ({ st with bd := bd1, sha := st.sha ++ st.buf.take st.bufp, bufp := 0 }, none)
    | (bd1, .error e) => ({ st with bd := bd1 }, some e)
  else (st, none)

theorem bbFlush_ok_bufp (st st1 : BB) (h : bbFlush st = (st1, none)) : st1.bufp = 0 := by
  unfold bbFlush at h
  split at h
  · split at h
    · cases h
      rfl
    · simp at h
  · rename_i hb
    cases h
    simpa using hb

theorem bbFlush_buf (st st1 : BB) (o : Option Err) (h : bbFlush st = (st1, o)) :
    st1.buf = st.buf := by
  unfold bbFlush at h
  split at h
  · split at h
    · cases h
      rfl
    · cases h
      rfl
  · cases h
    rfl

/-- Model of the copy loop of `BufferedBlockdev.write` (lines 94-105): copy as
much of `data` as fits into the rest of the buffer, flush when the buffer is
exactly full, and continue with the rest of `data`.  The first guard is
unreachable for any constructed `BufferedBlockdev` (the constructor rejects a
buffer smaller than one block, and the flush inside the loop fires exactly when
the buffer is full, so `bufp` never exceeds the buffer length); on those
degenerate states the Python loop would never terminate. -/
def bbWriteLoop (st : BB) (data : List Nat) : BB × Option Err :=
  if h0 : st.buf.length = 0 ∨ st.buf.length < st.bufp then (st, none)
  else if hd : data.length = 0 then (st, none)
  else
    let ln := min (st.buf.length - st.bufp) data.length
    let st1 : BB := { st with buf := listWrite st.buf st.bufp (data.take ln),
                              bufp := st.bufp + ln }
    if hf : st1.bufp = st.buf.length then
      match hres : bbFlush st1 with
      | (st2, none) => bbWriteLoop st2 (data.drop ln)
      | (st2, some e) => (st2, some e)
    else bbWriteLoop st1 (data.drop ln)
termination_by (data.length, st.bufp)
decreasing_by
  · simp_wf
    have h2 : st2.bufp = 0 := bbFlush_ok_bufp _ _ hres
    rcases Nat.eq_zero_or_pos ((st.buf.length - st.bufp) ⊓ data.length) with hln | hln
    · have hfirst : data.length - (st.buf.length - st.bufp) ⊓ data.length = data.length := by
        omega
      rw [hfirst]
      apply Prod.Lex.right
      omega
    · apply Prod.Lex.left
      omega
  · simp_wf
    rcases Nat.eq_zero_or_pos ((st.buf.length - st.bufp) ⊓ data.length) with hln | hln
    · exfalso
      have hf2 : ¬(st.bufp + ((st.buf.length - st.bufp) ⊓ data.length) = st.buf.length) := hf
      omega
    · apply Prod.Lex.left
      omega

/-- Model of `BufferedBlockdev.write` (lines 94-105): runs the copy loop and,
when no exception is raised, returns `len(data)` (the call always accepts its
entire input). -/
def bbWrite (st : BB) (data : List Nat) : BB × Except Err Nat :=
  match bbWriteLoop st data with
  | (st1, none) => (st1, .ok data.length)
  | (st1, some e) => (st1, .error e)

/-- A sequence of caller-chunked `BufferedBlockdev.write` calls; an exception
from one call ends the session. -/
def bbWriteMany (st : BB) (cs : List (List Nat)) : BB × Option Err :=
  match cs with
  | [] => (st, none)
  | c :: rest =>
    match bbWriteLoop st c with
    | (st1, none) => bbWriteMany st1 rest
    | (st1, some e) => (st1, some e)

/-! Model of `BlockDevWriter` (blockdev_writer.py lines 120-199). -/

structure Wr where
  device : BB
  sha_check : List Nat
  length : Nat
  verifyFlag : Bool
  sha : List Nat
deriving DecidableEq

/-- Model of `BlockDevWriter.__init__` (lines 121-142): wraps the device in a
`BufferedBlockdev` (default buffer size), records the expected digest
(`str(sha)`, empty when not supplied), expected length (0 when not supplied)
and the verify flag, and raises `ValueError` when the expected length exceeds
the partition capacity.  `self.sha` starts as the empty string. -/
def wInit (bs bc : Nat) (contents : List Nat) (shaArg : List Nat) (lengthArg : Nat)
    (vf : Bool) : Except Err Wr :=
  match bbInit bs bc contents 0 with
  | .error e => .error e
  | .ok dev =>
    if bs * bc < lengthArg then .error .lengthTooBig
    else .ok { device := dev, sha_check := shaArg, length := lengthArg,
               verifyFlag := vf, sha := [] }

theorem bdReadinto_pos (st : BD) (L n : Nat) (bytes : List Nat) (st1 : BD)
    (h : bdReadinto st L = (st1, .ok (n, bytes))) :
    st1.end_ = st.end_ ∧ st1.pos = st.pos + n ∧ (0 < n → st.pos < st.end_) := by
  unfold bdReadinto at h
  split at h
  · cases h
    refine ⟨rfl, by simp, by omega⟩
  · split at h
    · simp at h
    · split at h
      · simp at h
      · split at h
        · simp at h
        · cases h
          refine ⟨rfl, rfl, ?_⟩
          intro hn
          omega

/-- Model of the read-back loop of `BlockDevWriter.verify` (lines 184-186):
repeatedly `readinto` a buffer of length `buflen`, feeding the bytes read into
the read-back digest (`acc`), until `readinto` returns 0. -/
def wVerifyLoop (bd : BD) (buflen : Nat) (acc : List Nat) : BD × Except Err (List Nat) :=
  match hres : bdReadinto bd buflen with
  | (bd1, .error e) => (bd1, .error e)
  | (bd1, .ok (n, bytes)) =>
    if hn : 0 < n then wVerifyLoop bd1 buflen (acc ++ bytes) else (bd1, .ok acc)
termination_by bd.end_ - bd.pos
decreasing_by
  · have h := bdReadinto_pos bd buflen n bytes bd1 hres
    omega

/-- Model of `BlockDevWriter.verify` (lines 179-192): seek to the start of the
partition, then (unconditionally) compute `divmod(size, blocksize)` for the
progress message -- which raises `ZeroDivisionError` when `blocksize = 0` --
then read everything back in blocksize-sized chunks, hash it, and compare the
read-back digest with `self.sha` (the digest of the bytes written, set by
`close`); a mismatch raises the verify-failure `ValueError`. -/
def wVerify (w : Wr) : Wr × Except Err (List Nat) :=
  if w.device.bd.blocksize = 0 then
    ({ w with device := { w.device with bd := bdSeek w.device.bd 0 0 } }, .error .divZero)
  else
    match wVerifyLoop (bdSeek w.device.bd 0 0) w.device.bd.blocksize [] with
    | (bd1, .error e) => ({ w with device := { w.device with bd := bd1 } }, .error e)
    | (bd1, .ok readBytes) =>
      if readBytes ≠ w.sha then
        ({ w with device := { w.device with bd := bd1 } }, .error .verifyFail)
      else ({ w with device := { w.device with bd := bd1 } }, .ok readBytes)

/-- Model of `BlockDevWriter.close` (lines 160-175): flush the buffer, set
`self.sha` to the final digest, then check the expected length (when supplied),
then the expected digest (when supplied), then optionally run the read-back
verification, and finally seek back to the start of the partition and return
`(bytes_written, sha)`. -/
def wClose (w : Wr) : Wr × Except Err (Nat × List Nat) :=
  match bbFlush w.device with
  | (dev, some e) => ({ w with device := dev }, .error e)
  | (dev, none) =>
    if w.length ≠ 0 ∧ w.length ≠ dev.bd.size then
      ({ w with device := dev, sha := dev.sha }, .error .lengthMismatch)
    else if w.sha_check ≠ [] ∧ w.sha_check ≠ dev.sha then
      ({ w with device := dev, sha := dev.sha }, .error .shaMismatch)
    else
      match (if w.verifyFlag then wVerify { w with device := dev, sha := dev.sha }
             else ({ w with device := dev, sha := dev.sha }, .ok [])) with
      | (w2, .error e) => (w2, .error e)
      | (w2, .ok _) =>
        ({ w2 with device := { w2.device with bd := bdSeek w2.device.bd 0 0 } },
          .ok (dev.bd.size, dev.sha))

/-! Model of the partition/bootloader collaborators and the `OTA` class
(writer.py).  `PartWorld` is the state of the partition metadata service:
which partition boots next, which is running, whether a spare OTA partition is
available (`get_next_update`), whether the bootloader is OTA capable
(`mark_app_valid_cancel_rollback` raises `OSError(-261)` otherwise), whether
`set_boot` accepts the new image (`OSError(-5379)` otherwise), and whether the
running image has been marked valid. -/

structure PartWorld where
  bootPart : Nat
  runningPart : Nat
  nextUpdate : Option Nat
  otaCapable : Bool
  setBootOk : Bool
  marked : Bool
deriving DecidableEq

/-- Model of `stop_rollback` (writer.py lines 16-18):
`Partition.mark_app_valid_cancel_rollback()`, raising `OSError(-261)` if the
bootloader is not OTA capable. -/
def stop_rollback (wd : PartWorld) : PartWorld × Option Err :=
  if wd.otaCapable then ({ wd with marked := true }, none) else (wd, some .otaUnsupported)

/-- Model of `Partition.set_boot` on partition `p`: sets the boot partition,
raising `OSError(-5379)` if the bootloader rejects the image. -/
def set_boot (wd : PartWorld) (p : Nat) : PartWorld × Option Err :=
  if wd.setBootOk then ({ wd with bootPart := p }, none) else (wd, some .bootInvalid)

/-- The state of an `OTA` object: the selected update partition and the
`BlockDevWriter` session against it. -/
structure OTASt where
  part : Nat
  writer : Wr
deriving DecidableEq

/-- Model of `OTA.__init__` (writer.py lines 28-45): look up the next update
partition (`OSError(ENOENT)` when none), call `stop_rollback()` (before any
byte is written), then construct the `BlockDevWriter` against the update
partition, whose flash has geometry `bs`/`bc` and current contents
`contents`. -/
def otaInit (wd : PartWorld) (bs bc : Nat) (contents : List Nat) (shaArg : List Nat)
    (lengthArg : Nat) (vf : Bool) : PartWorld × Except Err OTASt :=
  match wd.nextUpdate with
  | none => (wd, .error .noOta)
  | some p =>
    match stop_rollback wd with
    | (wd1, some e) => (wd1, .error e)
    | (wd1, none) =>
      match wInit bs bc contents shaArg lengthArg vf with
      | .error e => (wd1, .error e)
      | .ok wr => (wd1, .ok { part := p, writer := wr })

/-- Model of `OTA.write` (writer.py lines 47-48): pass-through to the writer. -/
def otaWrite (s : OTASt) (data : List Nat) : OTASt × Except Err Nat :=
  match bbWrite s.writer.device data with
  | (dev, r) => ({ s with writer := { s.writer with device := dev } }, r)

/-- Model of `OTA.close` (writer.py lines 53-71): close the writer session and,
only when it returns successfully, call `set_boot` on the new partition.  The
optional reboot countdown carries no state and is not modelled. -/
def otaClose (wd : PartWorld) (s : OTASt) :
    PartWorld × OTASt × Except Err (Nat × List Nat) :=
  match wClose s.writer with
  | (w1, .error e) => (wd, { s with writer := w1 }, .error e)
  | (w1, .ok ret) =>
    match set_boot wd s.part with
    | (wd1, some e) => (wd1, { s with writer := w1 }, .error e)
    | (wd1, none) => (wd1, { s with writer := w1 }, .ok ret)

/-- Model of `OTA.__exit__` (writer.py lines 76-78): when the scope exits with
a pending exception (`errPending = true`), `close` is not called and nothing
changes; otherwise `close` runs. -/
def otaExit (errPending : Bool) (wd : PartWorld) (s : OTASt) : PartWorld × OTASt :=
  if errPending then (wd, s)
  else ((otaClose wd s).1, (otaClose wd s).2.1)

/-! Model of the partition table helpers of status.py.  A partition is its
`info()` tuple `(type, subtype, addr, size, label, encrypted)`; labels are
abstracted to numeric identifiers and the `encrypted` flag is irrelevant to
(and unused by) the modelled code. -/

structure PInfo where
  ptype : Nat
  subtype : Nat
  offset : Nat
  psize : Nat
  label : Nat
deriving DecidableEq

def TYPE_APP : Nat := 0

def OTA_MIN : Nat := 16

def OTA_MAX : Nat := 32

/-- Model of `ota_partitions` (status.py lines 59-67): the app partitions of
the table whose subtype lies in `[OTA_MIN, OTA_MAX)`, sorted by subtype
(Python's stable sort; `insertionSort` is stable, so the result agrees). -/
def otaPartitions (table : List PInfo) : List PInfo :=
  List.insertionSort (fun a b => a.subtype ≤ b.subtype)
    ((table.filter (fun p => p.ptype == TYPE_APP)).filter
      (fun p => decide (OTA_MIN ≤ p.subtype) && decide (p.subtype < OTA_MAX)))

/-- Python list access `parts[i - 1]` for a valid index `i`: for `i = 0` the
negative index `-1` selects the last element. -/
def pyPrev (parts : List PInfo) (i : Nat) : PInfo :=
  if i = 0 then parts.getD (parts.length - 1) ⟨0, 0, 0, 0, 0⟩
  else parts.getD (i - 1) ⟨0, 0, 0, 0, 0⟩

/-- Model of `force_rollback` (status.py lines 99-107): scan the sorted OTA
partitions for the first one whose `info()` equals the running partition's,
set `parts[i - 1]` bootable, and raise `OSError(-261)` when the running
partition is not found.  The result is the partition handed to `set_boot`
(the reboot branch carries no partition state). -/
def force_rollback (table : List PInfo) (current : PInfo) : Except Err PInfo :=
  match (otaPartitions table).findIdx? (fun p => p == current) with
  | some i => .ok (pyPrev (otaPartitions table) i)
  | none => .error .otaUnsupported

/-! Byte-level characterisation of the copy loop of `BufferedBlockdev.write`.
The loop copies a maximal chunk into the buffer and flushes exactly when the
buffer becomes full; copying one byte at a time with the same flush rule
produces the same states, which makes the loop a fold over the bytes of the
input and yields chunking invariance. -/

/-- Copy one byte into the buffer at the fill mark, flushing when the buffer
becomes exactly full. -/
def bbPut (st : BB) (b : Nat) : BB × Option Err :=
  if st.bufp + 1 = st.buf.length then
    bbFlush { st with buf := listWrite st.buf st.bufp [b], bufp := st.bufp + 1 }
  else ({ st with buf := listWrite st.buf st.bufp [b], bufp := st.bufp + 1 }, none)

/-- One byte of the write loop at the `Except` level: a raised exception
short-circuits the rest of the input. -/
def bbStepE (s : BB × Option Err) (b : Nat) : BB × Option Err :=
  match s with
  | (st, none) => bbPut st b
  | (st, some e) => (st, some e)

theorem foldl_bbStepE_error (data : List Nat) (st : BB) (e : Err) :
    data.foldl bbStepE (st, some e) = (st, some e) := by
  induction data with
  | nil => rfl
  | cons b rest ih => simpa [bbStepE] using ih

/-- Copying a maximal chunk and flushing when full agrees with copying the
chunk byte by byte. -/
theorem bbChunk_eq_foldl (xs : List Nat) (st : BB) (hne : xs ≠ [])
    (hle : st.bufp + xs.length ≤ st.buf.length) :
    (if st.bufp + xs.length = st.buf.length then
       bbFlush { st with buf := listWrite st.buf st.bufp xs, bufp := st.bufp + xs.length }
     else ({ st with buf := listWrite st.buf st.bufp xs, bufp := st.bufp + xs.length }, none))
    = xs.foldl bbStepE (st, none) := by
  induction xs generalizing st with
  | nil => simp at hne
  | cons x rest ih =>
    cases rest with
    | nil =>
      show _ = bbStepE (st, none) x
      simp only [bbStepE, bbPut, List.length_cons, List.length_nil]
    | cons y ys =>
      have hlt : st.bufp < st.buf.length := by
        simp at hle
        omega
      have hcopy1 : bbStepE (st, none) x
          = ({ st with buf := listWrite st.buf st.bufp [x], bufp := st.bufp + 1 }, none) := by
        simp only [bbStepE, bbPut]
        rw [if_neg]
        simp at hle ⊢
        omega
      have hbuflen : (listWrite st.buf st.bufp [x]).length = st.buf.length :=
        listWrite_length _ _ _ (by simp; omega)
      have ihx := ih { st with buf := listWrite st.buf st.bufp [x], bufp := st.bufp + 1 }
        (by simp) (by simp [hbuflen]; simp at hle; omega)
      rw [List.foldl_cons, hcopy1]
      rw [← ihx]
      have hcons : listWrite (listWrite st.buf st.bufp [x]) (st.bufp + 1) (y :: ys)
          = listWrite st.buf st.bufp (x :: y :: ys) := listWrite_cons _ _ _ _ hlt
      simp only [hbuflen, hcons, List.length_cons]
      have harith : st.bufp + 1 + (ys.length + 1) = st.bufp + (ys.length + 1 + 1) := by omega
      rw [harith]

/-- An exception-free fold of the write loop preserves the buffer length and
keeps the fill mark strictly inside the buffer. -/
theorem foldl_bbStepE_ok (data : List Nat) (st st1 : BB)
    (hinv : st.bufp < st.buf.length)
    (h : data.foldl bbStepE (st, none) = (st1, none)) :
    st1.bufp < st1.buf.length ∧ st1.buf.length = st.buf.length := by
  induction data generalizing st with
  | nil =>
    cases h
    exact ⟨hinv, rfl⟩
  | cons b rest ih =>
    rw [List.foldl_cons] at h
    rcases hput : bbStepE (st, none) b with ⟨st2, o⟩
    rw [hput] at h
    cases o with
    | some e =>
      rw [foldl_bbStepE_error] at h
      cases h
    | none =>
      have hbuflen : (listWrite st.buf st.bufp [b]).length = st.buf.length :=
        listWrite_length _ _ _ (by simp; omega)
      have hst2 : st2.bufp < st2.buf.length ∧ st2.buf.length = st.buf.length := by
        simp only [bbStepE, bbPut] at hput
        split at hput
        · have hb0 : st2.bufp = 0 := bbFlush_ok_bufp _ _ hput
          have hbf : st2.buf
              = ({ st with buf := listWrite st.buf st.bufp [b], bufp := st.bufp + 1 } : BB).buf :=
            bbFlush_buf _ _ _ hput
          simp at hbf
          rw [hb0, hbf, hbuflen]
          exact ⟨by omega, rfl⟩
        · cases hput
          simp [hbuflen]
          omega
      have := ih st2 hst2.1 h
      exact ⟨this.1, this.2.trans hst2.2⟩

/-- The copy loop of `BufferedBlockdev.write` is a byte-by-byte fold over its
input whenever the fill mark is strictly inside the buffer (which holds for
every constructed writer and is preserved by every exception-free write). -/
theorem bbWriteLoop_eq_foldl_bounded : ∀ (N : Nat) (data : List Nat) (st : BB),
    data.length ≤ N → st.bufp < st.buf.length →
    bbWriteLoop st data = data.foldl bbStepE (st, none) := by
  intro N
  induction N with
  | zero =>
    intro data st hN hinv
    have : data = [] := by
      cases data
      · rfl
      · simp at hN
    subst this
    unfold bbWriteLoop
    rw [dif_neg (by omega)]
    simp
  | succ N ih =>
    intro data st hN hinv
    unfold bbWriteLoop
    rw [dif_neg (by omega)]
    by_cases hd : data.length = 0
    · rw [dif_pos hd]
      have : data = [] := by
        cases data
        · rfl
        · simp at hd
      subst this
      simp
    · rw [dif_neg hd]
      have hln1 : 1 ≤ min (st.buf.length - st.bufp) data.length := by omega
      have hln2 : min (st.buf.length - st.bufp) data.length ≤ data.length := by omega
      have htk : (data.take (min (st.buf.length - st.bufp) data.length)).length
          = min (st.buf.length - st.bufp) data.length := by
        simp
      have hchunk := bbChunk_eq_foldl
        (data.take (min (st.buf.length - st.bufp) data.length)) st
        (by intro hc; rw [hc] at htk; simp at htk; omega)
        (by rw [htk]; omega)
      rw [htk] at hchunk
      have hsplit : data = data.take (min (st.buf.length - st.bufp) data.length)
          ++ data.drop (min (st.buf.length - st.bufp) data.length) := by
        rw [List.take_append_drop]
      have hfold : data.foldl bbStepE (st, none)
          = (data.drop (min (st.buf.length - st.bufp) data.length)).foldl bbStepE
            ((data.take (min (st.buf.length - st.bufp) data.length)).foldl bbStepE
              (st, none)) := by
        conv_lhs => rw [hsplit]
        rw [List.foldl_append]
      by_cases hf : st.bufp + min (st.buf.length - st.bufp) data.length = st.buf.length
      · rw [dif_pos hf]
        rw [if_pos hf] at hchunk
        rcases hR : (data.take (min (st.buf.length - st.bufp) data.length)).foldl bbStepE
            (st, none) with ⟨st2, o⟩
        rw [hR] at hchunk hfold
        rw [hchunk]
        cases o with
        | none =>
          have hok := foldl_bbStepE_ok _ _ _ hinv hR
          rw [hfold]
          exact ih _ st2 (by simp; omega) hok.1
        | some e =>
          rw [hfold, foldl_bbStepE_error]
      · rw [dif_neg hf]
        rw [if_neg hf] at hchunk
        rw [hfold, ← hchunk]
        have hbuflen : (listWrite st.buf st.bufp
            (data.take (min (st.buf.length - st.bufp) data.length))).length
            = st.buf.length :=
          listWrite_length _ _ _ (by rw [htk]; omega)
        exact ih _ _ (by simp; omega) (by simp [hbuflen]; omega)

theorem bbWriteLoop_eq_foldl (data : List Nat) (st : BB)
    (hinv : st.bufp < st.buf.length) :
    bbWriteLoop st data = data.foldl bbStepE (st, none) :=
  bbWriteLoop_eq_foldl_bounded data.length data st (Nat.le_refl _) hinv

/-- A caller-chunked write session is a fold over the concatenation of the
chunks: the states it passes through depend only on the concatenated bytes. -/
theorem bbWriteMany_eq_foldl (cs : List (List Nat)) (st : BB)
    (hinv : st.bufp < st.buf.length) :
    bbWriteMany st cs = cs.flatten.foldl bbStepE (st, none) := by
  induction cs generalizing st with
  | nil => rfl
  | cons c rest ih =>
    show bbWriteMany st (c :: rest) = _
    unfold bbWriteMany
    rw [bbWriteLoop_eq_foldl c st hinv]
    rcases hR : c.foldl bbStepE (st, none) with ⟨st1, o⟩
    have hflat : (c :: rest).flatten.foldl bbStepE (st, none)
        = rest.flatten.foldl bbStepE (c.foldl bbStepE (st, none)) := by
      rw [List.flatten_cons, List.foldl_append]
    cases o with
    | none =>
      have hok := foldl_bbStepE_ok _ _ _ hinv hR
      rw [hflat, hR]
      exact ih st1 hok.1
    | some e =>
      rw [hflat, hR, foldl_bbStepE_error]

/-- A block-aligned whole-blocks write within capacity succeeds and appends
the data at the cursor. -/
theorem bdWrite_whole (bd : BD) (data : List Nat)
    (hbs : 0 < bd.blocksize) (hpos : bd.pos % bd.blocksize = 0)
    (hlen : data.length % bd.blocksize = 0)
    (hcap : bd.pos + data.length ≤ bd.blocksize * bd.blockcount) :
    bdWrite bd data
      = ({ bd with contents := listWrite bd.contents bd.pos data,
                   pos := bd.pos + data.length, end_ := bd.pos + data.length },
          .ok data.length) := by
  have hdvd : bd.pos / bd.blocksize * bd.blocksize = bd.pos :=
    Nat.div_mul_cancel (Nat.dvd_of_mod_eq_zero hpos)
  unfold bdWrite devWriteblocks BD.capacity
  rw [if_neg (by omega), if_neg (by simp [hpos]), if_pos hlen]
  rw [hdvd, if_pos hcap]

/-- A block-aligned sub-block write within capacity succeeds: the target block
is erased to `0xFF` and the data written at its start. -/
theorem bdWrite_sub (bd : BD) (data : List Nat)
    (hbs : 0 < bd.blocksize) (hpos : bd.pos % bd.blocksize = 0)
    (hlen0 : 0 < data.length) (hlt : data.length < bd.blocksize)
    (hcap : bd.pos + bd.blocksize ≤ bd.blocksize * bd.blockcount) :
    bdWrite bd data
      = ({ bd with
            contents := listWrite
              (listWrite bd.contents bd.pos (List.replicate bd.blocksize 255))
              bd.pos data,
            pos := bd.pos + data.length,
            end_ := bd.pos + data.length },
          .ok data.length) := by
  have hdvd : bd.pos / bd.blocksize * bd.blocksize = bd.pos :=
    Nat.div_mul_cancel (Nat.dvd_of_mod_eq_zero hpos)
  have hmod : data.length % bd.blocksize = data.length := Nat.mod_eq_of_lt hlt
  have hblock : bd.pos / bd.blocksize < bd.blockcount := by
    by_contra hc
    push_neg at hc
    have hmul : bd.blockcount * bd.blocksize ≤ bd.pos / bd.blocksize * bd.blocksize :=
      Nat.mul_le_mul_right _ hc
    rw [hdvd, Nat.mul_comm] at hmul
    omega
  unfold bdWrite devErase devWriteblocks BD.capacity
  rw [if_neg (by omega), if_neg (by simp [hpos]), if_neg (by omega), if_pos hlt,
    if_pos hblock]
  dsimp only
  rw [hdvd, if_pos (by omega)]

/-- Invariant tying the state of a buffered writer to the stream `W` of bytes
written so far, for a session started on a fresh writer over a device of
geometry `bs * bc` with initial contents `c0`: flushes happen in whole buffers
of `bs` bytes, so exactly `bs * (W.length / bs)` bytes have reached the device
(and the digest) and the remaining `W.length % bs` bytes sit at the front of
the buffer. -/
def streamInv (bs bc : Nat) (c0 W : List Nat) (st : BB) : Prop :=
  st.bd.blocksize = bs ∧
  st.bd.blockcount = bc ∧
  st.bd.contents = W.take (bs * (W.length / bs)) ++ c0.drop (bs * (W.length / bs)) ∧
  st.bd.pos = bs * (W.length / bs) ∧
  st.bd.end_ = bs * (W.length / bs) ∧
  st.buf.length = bs ∧
  st.bufp = W.length % bs ∧
  st.buf.take st.bufp = W.drop (bs * (W.length / bs)) ∧
  st.sha = W.take (bs * (W.length / bs)) ∧
  c0.length = bs * bc

theorem streamInv_fresh (bs bc : Nat) (c0 : List Nat) (hbs : 0 < bs)
    (hc0 : c0.length = bs * bc) : streamInv bs bc c0 [] (bbFresh bs bc c0) := by
  unfold streamInv bbFresh
  simp [hc0]

/-- One byte of the write loop preserves the stream invariant, as long as the
byte still fits in the device capacity. -/
theorem streamInv_step (bs bc : Nat) (c0 W : List Nat) (st : BB) (b : Nat)
    (hbs : 0 < bs) (hcap : W.length + 1 ≤ bs * bc)
    (hinv : streamInv bs bc c0 W st) :
    (bbPut st b).2 = none ∧ streamInv bs bc c0 (W ++ [b]) (bbPut st b).1 := by
  obtain ⟨h1, h2, h3, h4, h5, h6, h7, h8, h9, h10⟩ := hinv
  have hWlen : bs * (W.length / bs) + W.length % bs = W.length := Nat.div_add_mod _ _
  have hr : W.length % bs < bs := Nat.mod_lt _ hbs
  have hfle : bs * (W.length / bs) ≤ W.length := by omega
  have hWtf : (W.take (bs * (W.length / bs))).length = bs * (W.length / bs) := by
    simp
    omega
  by_cases hfull : W.length % bs + 1 = bs
  · -- the byte fills the buffer: the copy is followed by a whole-block flush
    have hdiv : (W.length + 1) / bs = W.length / bs + 1 := by
      have he : W.length + 1 = bs * (W.length / bs) + bs := by omega
      rw [he, Nat.mul_add_div hbs, Nat.div_self hbs]
    have hmod2 : (W.length + 1) % bs = 0 := by
      have he : W.length + 1 = bs * (W.length / bs) + bs := by omega
      rw [he, Nat.mul_add_mod, Nat.mod_self]
    have hB1len : (listWrite st.buf st.bufp [b]).length = bs := by
      rw [listWrite_length]
      · exact h6
      · simp
        omega
    have hB1take : (listWrite st.buf st.bufp [b]).take (st.bufp + 1)
        = W.drop (bs * (W.length / bs)) ++ [b] := by
      have := listWrite_take_full st.buf [b] st.bufp (by omega)
      simp at this
      rw [this, h8]
    have hmvlen : (W.drop (bs * (W.length / bs)) ++ [b]).length = bs := by
      simp
      omega
    unfold bbPut
    rw [if_pos (by rw [h7, h6]; exact hfull)]
    unfold bbFlush
    rw [if_pos (by simp)]
    dsimp only
    rw [hB1take]
    rw [bdWrite_whole st.bd _ (by omega) (by rw [h4, h1, Nat.mul_mod_right])
      (by rw [hmvlen, h1, Nat.mod_self]) (by rw [h1, h2, hmvlen, h4]; omega)]
    refine ⟨rfl, ?_⟩
    unfold streamInv
    dsimp only
    have hf2 : bs * ((W ++ [b]).length / bs) = W.length + 1 := by
      simp only [List.length_append, List.length_cons, List.length_nil]
      rw [hdiv, Nat.mul_succ]
      omega
    have hWb : (W ++ [b]).length = W.length + 1 := by simp
    refine ⟨h1, h2, ?_, ?_, ?_, hB1len, ?_, ?_, ?_, h10⟩
    · -- contents
      rw [h3, h4]
      rw [hf2]
      have htake_all : (W ++ [b]).take (W.length + 1) = W ++ [b] :=
        List.take_of_length_le (by simp)
      rw [htake_all]
      have hA : (W.take (bs * (W.length / bs)) ++ c0.drop (bs * (W.length / bs))).take
          (bs * (W.length / bs)) = W.take (bs * (W.length / bs)) := by
        rw [List.take_append_of_le_length (by omega)]
        exact List.take_of_length_le (by omega)
      unfold listWrite
      rw [hA, hmvlen]
      have hB : (W.take (bs * (W.length / bs)) ++ c0.drop (bs * (W.length / bs))).drop
          (bs * (W.length / bs) + bs) = c0.drop (W.length + 1) := by
        rw [List.drop_append_eq_append_drop]
        have hnil : (W.take (bs * (W.length / bs))).drop (bs * (W.length / bs) + bs)
            = [] := List.drop_eq_nil_of_le (by omega)
        rw [hnil, List.drop_drop, List.nil_append]
        congr 1
        omega
      rw [hB]
      rw [← List.append_assoc, List.take_append_drop]
    · rw [h4, hmvlen, hf2]
      omega
    · rw [h4, hmvlen, hf2]
      omega
    · rw [hWb, hmod2]
    · rw [hf2]
      symm
      simp only [List.take_zero]
      apply List.drop_eq_nil_of_le
      simp
    · rw [h9, hf2]
      have htka : (W ++ [b]).take (W.length + 1) = W ++ [b] :=
        List.take_of_length_le (by simp)
      rw [htka, ← List.append_assoc, List.take_append_drop]
  · -- the byte does not fill the buffer: it is only copied
    have hlt2 : W.length % bs + 1 < bs := by omega
    have hdiv : (W.length + 1) / bs = W.length / bs := by
      have he : W.length + 1 = bs * (W.length / bs) + (W.length % bs + 1) := by omega
      rw [he, Nat.mul_add_div hbs, Nat.div_eq_of_lt hlt2]
      omega
    have hmod2 : (W.length + 1) % bs = W.length % bs + 1 := by
      have he : W.length + 1 = bs * (W.length / bs) + (W.length % bs + 1) := by omega
      rw [he, Nat.mul_add_mod, Nat.mod_eq_of_lt hlt2]
    have hB1len : (listWrite st.buf st.bufp [b]).length = bs := by
      rw [listWrite_length]
      · exact h6
      · simp
        omega
    have hB1take : (listWrite st.buf st.bufp [b]).take (st.bufp + 1)
        = W.drop (bs * (W.length / bs)) ++ [b] := by
      have := listWrite_take_full st.buf [b] st.bufp (by omega)
      simp at this
      rw [this, h8]
    unfold bbPut
    rw [if_neg (by rw [h7, h6]; exact hfull)]
    refine ⟨rfl, ?_⟩
    unfold streamInv
    dsimp only
    have hf2 : bs * ((W ++ [b]).length / bs) = bs * (W.length / bs) := by
      simp only [List.length_append, List.length_cons, List.length_nil]
      rw [hdiv]
    have hWb : (W ++ [b]).length = W.length + 1 := by simp
    refine ⟨h1, h2, ?_, ?_, ?_, hB1len, ?_, ?_, ?_, h10⟩
    · rw [h3, hf2, List.take_append_of_le_length (by omega)]
    · rw [h4, hf2]
    · rw [h5, hf2]
    · rw [hWb, hmod2, h7]
    · rw [hf2, hB1take, List.drop_append_of_le_length (by omega)]
    · rw [h9, hf2, List.take_append_of_le_length (by omega)]

/-- The stream invariant extends over any further byte sequence that fits in
the device capacity, and no exception is raised along the way. -/
theorem streamInv_fold (bs bc : Nat) (c0 : List Nat) (data : List Nat) :
    ∀ (W : List Nat) (st : BB), 0 < bs → W.length + data.length ≤ bs * bc →
    streamInv bs bc c0 W st →
    (data.foldl bbStepE (st, none)).2 = none ∧
    streamInv bs bc c0 (W ++ data) ((data.foldl bbStepE (st, none)).1) := by
  induction data with
  | nil =>
    intro W st hbs hcap hinv
    simpa using hinv
  | cons b rest ih =>
    intro W st hbs hcap hinv
    have hstep := streamInv_step bs bc c0 W st b hbs (by simp at hcap; omega) hinv
    rcases hput : bbPut st b with ⟨st1, o⟩
    rw [hput] at hstep
    rcases hstep with ⟨ho, hinv1⟩
    cases o with
    | some e => simp at ho
    | none =>
      have hstep2 := ih (W ++ [b]) st1 hbs (by simp at hcap ⊢; omega) hinv1
      rw [List.foldl_cons]
      have hbse : bbStepE (st, none) b = (st1, none) := by
        simp [bbStepE, hput]
      rw [hbse]
      refine ⟨hstep2.1, ?_⟩
      have hassoc : W ++ b :: rest = (W ++ [b]) ++ rest := by simp
      rw [hassoc]
      exact hstep2.2

/-- The final flush of a session (from `close`) succeeds whenever the stream
fits in the device, and afterwards the device holds exactly the stream: the
high-water mark equals the stream length, the digest was fed exactly the
stream, and the flash contents start with the stream. -/
theorem streamInv_flush (bs bc : Nat) (c0 W : List Nat) (st : BB)
    (hbs : 0 < bs) (hcap : W.length ≤ bs * bc) (hinv : streamInv bs bc c0 W st) :
    (bbFlush st).2 = none ∧
    (bbFlush st).1.bd.end_ = W.length ∧
    (bbFlush st).1.bd.pos = W.length ∧
    (bbFlush st).1.sha = W ∧
    (bbFlush st).1.bd.contents.take W.length = W ∧
    (bbFlush st).1.bd.blocksize = bs ∧
    (bbFlush st).1.bd.blockcount = bc := by
  obtain ⟨h1, h2, h3, h4, h5, h6, h7, h8, h9, h10⟩ := hinv
  have hWlen : bs * (W.length / bs) + W.length % bs = W.length := Nat.div_add_mod _ _
  have hr : W.length % bs < bs := Nat.mod_lt _ hbs
  have hfle : bs * (W.length / bs) ≤ W.length := by omega
  have hWtf : (W.take (bs * (W.length / bs))).length = bs * (W.length / bs) := by
    simp
    omega
  have hclen : st.bd.contents.length = bs * bc := by
    rw [h3]
    simp
    omega
  have hctake : st.bd.contents.take (bs * (W.length / bs))
      = W.take (bs * (W.length / bs)) := by
    rw [h3, List.take_append_of_le_length (by omega)]
    exact List.take_of_length_le (by omega)
  by_cases hz : W.length % bs = 0
  · -- empty buffer: flush is a no-op
    have hfW : bs * (W.length / bs) = W.length := by omega
    unfold bbFlush
    rw [if_neg (by omega)]
    dsimp only
    rw [h5, h4, h9, hfW]
    refine ⟨rfl, rfl, rfl, List.take_of_length_le (by omega), ?_, h1, h2⟩
    rw [← hfW, hctake, hfW]
    exact List.take_of_length_le (by omega)
  · -- non-empty buffer: a sub-block write of the remaining bytes
    have hq1 : bs * (W.length / bs) + bs ≤ bs * bc := by
      have hlt : bs * (W.length / bs) < bs * bc := by omega
      have hqlt : W.length / bs < bc := Nat.lt_of_mul_lt_mul_left hlt
      have := Nat.mul_le_mul_left bs hqlt
      rw [Nat.mul_succ] at this
      omega
    have hmv : st.buf.take st.bufp = W.drop (bs * (W.length / bs)) := h8
    have hmvlen : (W.drop (bs * (W.length / bs))).length = W.length % bs := by
      simp
      omega
    unfold bbFlush
    rw [if_pos (by omega)]
    rw [hmv]
    rw [bdWrite_sub st.bd _ (by omega) (by rw [h4, h1]; exact Nat.mul_mod_right _ _)
      (by rw [hmvlen]; omega) (by rw [hmvlen, h1]; omega)
      (by rw [h1, h2, h4]; omega)]
    dsimp only
    rw [h4]
    have hC1len : (listWrite st.bd.contents (bs * (W.length / bs))
        (List.replicate st.bd.blocksize 255)).length = bs * bc := by
      rw [listWrite_length]
      · exact hclen
      · rw [hclen, h1]
        simp
        omega
    have hC1take : (listWrite st.bd.contents (bs * (W.length / bs))
        (List.replicate st.bd.blocksize 255)).take (bs * (W.length / bs))
        = W.take (bs * (W.length / bs)) := by
      rw [listWrite_take_self _ _ _ (by omega), hctake]
    have hC2take : (listWrite (listWrite st.bd.contents (bs * (W.length / bs))
          (List.replicate st.bd.blocksize 255)) (bs * (W.length / bs))
          (W.drop (bs * (W.length / bs)))).take
          (bs * (W.length / bs) + (W.drop (bs * (W.length / bs))).length)
        = W.take (bs * (W.length / bs)) ++ W.drop (bs * (W.length / bs)) := by
      rw [listWrite_take_full _ _ _ (by omega), hC1take]
    refine ⟨rfl, by rw [hmvlen]; omega, by rw [hmvlen]; omega, ?_, ?_, h1, h2⟩
    · rw [h9, List.take_append_drop]
    · have harith : bs * (W.length / bs) + (W.drop (bs * (W.length / bs))).length
          = W.length := by
        rw [hmvlen]
        omega
      rw [harith] at hC2take
      rw [List.take_append_drop] at hC2take
      exact hC2take

/-- Flushing an empty buffer does nothing (`if self._bufp:` guard). -/
theorem bbFlush_empty (st : BB) (h : st.bufp = 0) : bbFlush st = (st, none) := by
  unfold bbFlush
  rw [if_neg (by omega)]

/-- C4: for every total payload and every way of splitting it into a sequence
of `BufferedBlockdev.write` calls, the states passed through -- in particular
the digest stream reported at close, after the final flush -- are identical:
the digest is fed only at flush time with exactly the bytes transferred to the
device, so it depends only on the concatenated payload, not on caller
chunking.  (The digest is an injective function of the byte stream `sha`.) -/
theorem C4_digest_chunking_invariant (bs bc : Nat) (c0 : List Nat)
    (cs cs2 : List (List Nat)) (hbs : 0 < bs) (hjoin : cs.flatten = cs2.flatten) :
    bbWriteMany (bbFresh bs bc c0) cs = bbWriteMany (bbFresh bs bc c0) cs2 ∧
    (bbFlush (bbWriteMany (bbFresh bs bc c0) cs).1).1.sha
      = (bbFlush (bbWriteMany (bbFresh bs bc c0) cs2).1).1.sha := by
  have hinv0 : (bbFresh bs bc c0).bufp < (bbFresh bs bc c0).buf.length := by
    unfold bbFresh
    simp [hbs]
  have h1 := bbWriteMany_eq_foldl cs (bbFresh bs bc c0) hinv0
  have h2 := bbWriteMany_eq_foldl cs2 (bbFresh bs bc c0) hinv0
  have hmain : bbWriteMany (bbFresh bs bc c0) cs = bbWriteMany (bbFresh bs bc c0) cs2 := by
    rw [h1, h2, hjoin]
  exact ⟨hmain, by rw [hmain]⟩

theorem C4_digest_chunking_invariant_witness :
    bbWriteMany (bbFresh 2 2 [0, 0, 0, 0]) [[1], [2, 3]]
      = bbWriteMany (bbFresh 2 2 [0, 0, 0, 0]) [[1, 2], [3]] ∧
    (bbFlush (bbWriteMany (bbFresh 2 2 [0, 0, 0, 0]) [[1], [2, 3]]).1).1.sha
      = (bbFlush (bbWriteMany (bbFresh 2 2 [0, 0, 0, 0]) [[1, 2], [3]]).1).1.sha :=
  C4_digest_chunking_invariant 2 2 [0, 0, 0, 0] [[1], [2, 3]] [[1, 2], [3]]
    (by decide) (by decide)

/-- C5: for every sequence of `BufferedBlockdev.write` calls whose
concatenation fits the partition, followed by the final flush, every call
succeeds, and the bytes delivered to the device equal the original
concatenation exactly (the flash contents start with the concatenated payload
and the high-water mark equals its length), regardless of chunking; and every
`write` call that returns does so with the full input length (never a partial
accept). -/
theorem C5_write_flush_delivery (bs bc : Nat) (c0 : List Nat) (cs : List (List Nat))
    (hbs : 0 < bs) (hc0 : c0.length = bs * bc)
    (hcap : cs.flatten.length ≤ bs * bc) :
    (bbWriteMany (bbFresh bs bc c0) cs).2 = none ∧
    (bbFlush (bbWriteMany (bbFresh bs bc c0) cs).1).2 = none ∧
    ((bbFlush (bbWriteMany (bbFresh bs bc c0) cs).1).1.bd.contents).take
        cs.flatten.length = cs.flatten ∧
    (bbFlush (bbWriteMany (bbFresh bs bc c0) cs).1).1.bd.end_ = cs.flatten.length ∧
    (∀ (st : BB) (data : List Nat) (st1 : BB) (n : Nat),
      bbWrite st data = (st1, .ok n) → n = data.length) := by
  have hinv0 : (bbFresh bs bc c0).bufp < (bbFresh bs bc c0).buf.length := by
    unfold bbFresh
    simp [hbs]
  have hmany := bbWriteMany_eq_foldl cs (bbFresh bs bc c0) hinv0
  have hfold := streamInv_fold bs bc c0 cs.flatten [] (bbFresh bs bc c0) hbs
    (by simpa using hcap) (streamInv_fresh bs bc c0 hbs hc0)
  rw [List.nil_append] at hfold
  have hflush := streamInv_flush bs bc c0 cs.flatten
    ((cs.flatten.foldl bbStepE (bbFresh bs bc c0, none)).1) hbs hcap hfold.2
  refine ⟨?_, ?_, ?_, ?_, ?_⟩
  · rw [hmany]
    exact hfold.1
  · rw [hmany]
    exact hflush.1
  · rw [hmany]
    exact hflush.2.2.2.2.1
  · rw [hmany]
    exact hflush.2.1
  · intro st data st1 n h
    unfold bbWrite at h
    split at h
    · cases h
      rfl
    · simp at h

theorem C5_write_flush_delivery_witness :
    (bbWriteMany (bbFresh 2 2 [0, 0, 0, 0]) [[1, 2, 3]]).2 = none ∧
    (bbFlush (bbWriteMany (bbFresh 2 2 [0, 0, 0, 0]) [[1, 2, 3]]).1).2 = none ∧
    ((bbFlush (bbWriteMany (bbFresh 2 2 [0, 0, 0, 0]) [[1, 2, 3]]).1).1.bd.contents).take
        ([[1, 2, 3]] : List (List Nat)).flatten.length
      = ([[1, 2, 3]] : List (List Nat)).flatten ∧
    (bbFlush (bbWriteMany (bbFresh 2 2 [0, 0, 0, 0]) [[1, 2, 3]]).1).1.bd.end_
      = ([[1, 2, 3]] : List (List Nat)).flatten.length ∧
    (∀ (st : BB) (data : List Nat) (st1 : BB) (n : Nat),
      bbWrite st data = (st1, .ok n) → n = data.length) :=
  C5_write_flush_delivery 2 2 [0, 0, 0, 0] [[1, 2, 3]]
    (by decide) (by decide) (by decide)

/-- C9: flushing with an empty buffer is the identity (no device write, no
cursor movement, no digest update); in particular a write whose length exactly
fills the buffer flushes inside `write` and leaves the fill mark at 0, so the
additional flush performed by `close` is a no-op and no bytes are
double-counted in the digest or rewritten to the device. -/
theorem C9_flush_empty_idempotent :
    (∀ st : BB, st.bufp = 0 → bbFlush st = (st, none)) ∧
    (∀ (st : BB) (data : List Nat), st.bufp = 0 → 0 < st.buf.length →
      data.length = st.buf.length →
      ∀ st2 : BB,
        bbFlush { st with buf := listWrite st.buf st.bufp data,
                          bufp := st.bufp + data.length } = (st2, none) →
        bbWriteLoop st data = (st2, none) ∧ st2.bufp = 0 ∧
          bbFlush st2 = (st2, none)) := by
  refine ⟨bbFlush_empty, ?_⟩
  intro st data h0 hpos hlen st2 hfl
  have hne : data ≠ [] := by
    intro h
    rw [h] at hlen
    simp at hlen
    omega
  have hchunk := bbChunk_eq_foldl data st hne (by omega)
  rw [if_pos (by omega)] at hchunk
  have hloop := bbWriteLoop_eq_foldl data st (by omega)
  rw [← hchunk] at hloop
  rw [hfl] at hloop
  exact ⟨hloop, bbFlush_ok_bufp _ _ hfl, bbFlush_empty _ (bbFlush_ok_bufp _ _ hfl)⟩

theorem C9_flush_empty_idempotent_witness :
    bbWriteLoop (bbFresh 1 2 [0, 0]) [7]
      = ({ bd := { blocksize := 1, blockcount := 2, contents := [7, 0],
                   pos := 1, end_ := 1 },
           buf := [7], bufp := 0, sha := [7] }, none) ∧
    ({ bd := { blocksize := 1, blockcount := 2, contents := [7, 0],
               pos := 1, end_ := 1 },
       buf := [7], bufp := 0, sha := [7] } : BB).bufp = 0 ∧
    bbFlush { bd := { blocksize := 1, blockcount := 2, contents := [7, 0],
                      pos := 1, end_ := 1 },
              buf := [7], bufp := 0, sha := [7] }
      = ({ bd := { blocksize := 1, blockcount := 2, contents := [7, 0],
                   pos := 1, end_ := 1 },
           buf := [7], bufp := 0, sha := [7] }, none) :=
  C9_flush_empty_idempotent.2 (bbFresh 1 2 [0, 0]) [7] rfl (by decide) (by decide)
    { bd := { blocksize := 1, blockcount := 2, contents := [7, 0],
              pos := 1, end_ := 1 },
      buf := [7], bufp := 0, sha := [7] } (by decide)

theorem devWriteblocks_error (st : BD) (block : Nat) (data : List Nat) (st1 : BD)
    (e : Err) (h : devWriteblocks st block data = (st1, some e)) :
    st1 = st ∧ e = .devRange := by
  unfold devWriteblocks at h
  split at h
  · simp at h
  · cases h
    exact ⟨rfl, rfl⟩

theorem devErase_error (st : BD) (block : Nat) (st1 : BD) (e : Err)
    (h : devErase st block = (st1, some e)) : st1 = st ∧ e = .devRange := by
  unfold devErase at h
  split at h
  · simp at h
  · cases h
    exact ⟨rfl, rfl⟩

theorem devErase_ok_block (st : BD) (block : Nat) (st1 : BD)
    (h : devErase st block = (st1, none)) : block < st.blockcount := by
  unfold devErase at h
  split at h
  · assumption
  · simp at h

theorem devWriteblocks_ok_of_le (st : BD) (block : Nat) (data : List Nat)
    (h : block * st.blocksize + data.length ≤ st.blocksize * st.blockcount) :
    devWriteblocks st block data
      = ({ st with contents := listWrite st.contents (block * st.blocksize) data },
          none) := by
  unfold devWriteblocks BD.capacity
  rw [if_pos h]

theorem devWriteblocks_fields (st : BD) (block : Nat) (data : List Nat) (st1 : BD)
    (o : Option Err) (h : devWriteblocks st block data = (st1, o)) :
    st1.blocksize = st.blocksize ∧ st1.blockcount = st.blockcount ∧
    st1.pos = st.pos ∧ st1.end_ = st.end_ := by
  unfold devWriteblocks at h
  split at h <;> (cases h; exact ⟨rfl, rfl, rfl, rfl⟩)

theorem devErase_fields (st : BD) (block : Nat) (st1 : BD)
    (o : Option Err) (h : devErase st block = (st1, o)) :
    st1.blocksize = st.blocksize ∧ st1.blockcount = st.blockcount ∧
    st1.pos = st.pos ∧ st1.end_ = st.end_ := by
  unfold devErase at h
  split at h <;> (cases h; exact ⟨rfl, rfl, rfl, rfl⟩)

/-- An aligned write of acceptable length never raises an alignment error:
it either succeeds or fails with the device range error. -/
theorem bdWrite_no_align (st : BD) (data : List Nat) (hbs : 0 < st.blocksize)
    (hpos : st.pos % st.blocksize = 0)
    (hlen : data.length % st.blocksize = 0 ∨ data.length < st.blocksize) :
    (bdWrite st data).2 = .ok data.length ∨ (bdWrite st data).2 = .error .devRange := by
  unfold bdWrite
  rw [if_neg (by omega), if_neg (by simp [hpos])]
  by_cases hm : data.length % st.blocksize = 0
  · rw [if_pos hm]
    split
    · exact Or.inl rfl
    · rename_i st1 e heq
      have hc := devWriteblocks_error _ _ _ _ _ heq
      rw [hc.2]
      exact Or.inr rfl
  · rw [if_neg hm]
    have hlt : data.length < st.blocksize := by
      rcases hlen with h | h
      · exact absurd h hm
      · exact h
    rw [if_pos hlt]
    split
    · split
      · exact Or.inl rfl
      · rename_i st2 e heq2
        have hc := devWriteblocks_error _ _ _ _ _ heq2
        rw [hc.2]
        exact Or.inr rfl
    · rename_i st1 e heq
      have hc := devErase_error _ _ _ _ heq
      rw [hc.2]
      exact Or.inr rfl

/-- An erroring `Blockdev.write` call leaves the state unchanged (else the
call succeeded): every `raise` happens before any mutation, and the only
device call after the block erase is in range by construction. -/
theorem bdWrite_error_state (st : BD) (data : List Nat) :
    (bdWrite st data).1 = st ∨ (∃ n, (bdWrite st data).2 = .ok n) := by
  unfold bdWrite
  split
  · exact Or.inl rfl
  · split
    · exact Or.inl rfl
    · split
      · split
        · exact Or.inr ⟨data.length, rfl⟩
        · rename_i st1 e heq
          have hc := devWriteblocks_error _ _ _ _ _ heq
          rw [hc.1]
          exact Or.inl rfl
      · split
        · split
          · split
            · exact Or.inr ⟨data.length, rfl⟩
            · rename_i hbz hpos hm hlt x1 st1 heq x2 st2 e heq2
              exfalso
              have hbl : st.pos / st.blocksize < st.blockcount :=
                devErase_ok_block st _ _ heq
              have hf1 := devErase_fields st _ _ _ heq
              have hin : st.pos / st.blocksize * st1.blocksize + data.length
                  ≤ st1.blocksize * st1.blockcount := by
                rw [hf1.1, hf1.2.1]
                have h1 : (st.pos / st.blocksize + 1) * st.blocksize
                    ≤ st.blockcount * st.blocksize :=
                  Nat.mul_le_mul_right _ (by omega)
                rw [Nat.add_mul, Nat.one_mul,
                  Nat.mul_comm st.blockcount st.blocksize] at h1
                omega
              rw [devWriteblocks_ok_of_le _ _ _ hin] at heq2
              simp at heq2
          · rename_i st1 e heq
            have hc := devErase_error _ _ _ _ heq
            rw [hc.1]
            exact Or.inl rfl
        · exact Or.inl rfl

/-- A successful `Blockdev.write` implies the cursor was aligned and advances
it by the data length, preserving the blocksize. -/
theorem bdWrite_ok_fields (st : BD) (data : List Nat) (stF : BD) (n : Nat)
    (h : bdWrite st data = (stF, .ok n)) :
    stF.blocksize = st.blocksize ∧ stF.pos = st.pos + data.length ∧
    st.pos % st.blocksize = 0 ∧ st.blocksize ≠ 0 := by
  unfold bdWrite at h
  split at h
  · simp at h
  · split at h
    · simp at h
    · rename_i hbz hpos
      split at h
      · split at h
        · rename_i heq
          have hf := devWriteblocks_fields st _ _ _ _ heq
          cases h
          exact ⟨hf.1, rfl, by omega, hbz⟩
        · simp at h
      · split at h
        · split at h
          · rename_i st1 heq
            split at h
            · rename_i st2 heq2
              have hf1 := devErase_fields st _ _ _ heq
              have hf2 := devWriteblocks_fields st1 _ _ _ _ heq2
              cases h
              refine ⟨?_, rfl, by omega, hbz⟩
              show st2.blocksize = st.blocksize
              rw [hf2.1, hf1.1]
            · simp at h
          · simp at h
        · simp at h

/-- C3: `Blockdev.write` raises an alignment error exactly when the cursor is
not block-aligned or the data is longer than one block without being a
multiple of the block size; a successful sub-block (shorter than one block)
write leaves the cursor misaligned, so every subsequent write raises an
alignment error and changes nothing; and every erroring write call leaves the
whole `Blockdev` state (cursor `pos`, high-water mark `end_`, flash contents)
unchanged. -/
theorem C3_write_alignment (st : BD) (hbs : 0 < st.blocksize) :
    (∀ data : List Nat,
      (∃ b, (bdWrite st data).2 = .error (.alignPos b)
          ∨ (bdWrite st data).2 = .error (.alignLen b))
        ↔ (st.pos % st.blocksize ≠ 0
            ∨ (st.blocksize < data.length ∧ data.length % st.blocksize ≠ 0))) ∧
    (∀ (data : List Nat) (stF : BD) (n : Nat),
      bdWrite st data = (stF, .ok n) → 0 < data.length → data.length < st.blocksize →
      ∀ d2 : List Nat,
        (bdWrite stF d2).2 = .error (.alignPos (stF.pos / stF.blocksize)) ∧
        (bdWrite stF d2).1 = stF) ∧
    (∀ (data : List Nat) (e : Err),
      (bdWrite st data).2 = .error e → (bdWrite st data).1 = st) := by
  refine ⟨?_, ?_, ?_⟩
  · intro data
    constructor
    · rintro ⟨b, hb⟩
      by_contra hrhs
      push_neg at hrhs
      have hlen : data.length % st.blocksize = 0 ∨ data.length < st.blocksize := by
        rcases Nat.lt_or_ge st.blocksize data.length with h | h
        · exact Or.inl (hrhs.2 h)
        · rcases Nat.eq_or_lt_of_le h with h2 | h2
          · exact Or.inl (by rw [← h2, Nat.mod_self])
          · exact Or.inr h2
      rcases bdWrite_no_align st data hbs hrhs.1 hlen with h | h <;>
        rcases hb with hb | hb <;> rw [hb] at h <;> simp at h
    · intro h
      by_cases hpos : st.pos % st.blocksize = 0
      · rcases h with h | ⟨hgt, hmod⟩
        · exact absurd hpos h
        · refine ⟨st.pos / st.blocksize, Or.inr ?_⟩
          unfold bdWrite
          rw [if_neg (by omega), if_neg (by simp [hpos]), if_neg hmod,
            if_neg (by omega)]
      · refine ⟨st.pos / st.blocksize, Or.inl ?_⟩
        unfold bdWrite
        rw [if_neg (by omega), if_pos hpos]
  · intro data stF n h hlen0 hlt d2
    obtain ⟨hbsF, hposF, hpa, hbz⟩ := bdWrite_ok_fields st data stF n h
    have hmod : data.length % st.blocksize = data.length := Nat.mod_eq_of_lt hlt
    have hpos1 : stF.pos % stF.blocksize = data.length := by
      rw [hbsF, hposF]
      have hdvd : st.blocksize * (st.pos / st.blocksize) = st.pos := by
        have := Nat.div_add_mod st.pos st.blocksize
        omega
      rw [← hdvd, Nat.mul_add_mod, hmod]
    constructor
    · unfold bdWrite
      rw [if_neg (by rw [hbsF]; omega), if_pos (by rw [hpos1]; omega)]
    · unfold bdWrite
      rw [if_neg (by rw [hbsF]; omega), if_pos (by rw [hpos1]; omega)]
  · intro data e h
    rcases bdWrite_error_state st data with h2 | ⟨n, h2⟩
    · exact h2
    · rw [h] at h2
      simp at h2

theorem C3_write_alignment_witness :
    ∃ b, (bdWrite ⟨2, 2, [0, 0, 0, 0], 1, 1⟩ [5]).2 = .error (.alignPos b)
       ∨ (bdWrite ⟨2, 2, [0, 0, 0, 0], 1, 1⟩ [5]).2 = .error (.alignLen b) :=
  ((C3_write_alignment ⟨2, 2, [0, 0, 0, 0], 1, 1⟩ (by decide)).1 [5]).mpr (by decide)

theorem listRead_append (l : List Nat) (s n m : Nat) :
    listRead l s n ++ listRead l (s + n) m = listRead l s (n + m) := by
  unfold listRead
  rw [List.take_add, List.drop_drop]

/-- The read-back loop returns immediately at the high-water mark. -/
theorem wVerifyLoop_stop (bd : BD) (buflen : Nat) (acc : List Nat)
    (hpe : bd.pos = bd.end_) :
    wVerifyLoop bd buflen acc = (bd, .ok acc) := by
  have hread : bdReadinto bd buflen = (bd, .ok (0, [])) := by
    unfold bdReadinto
    rw [if_pos hpe]
  unfold wVerifyLoop
  rw [hread]
  exact rfl

/-- The read-back loop of `BlockDevWriter.verify`, started block-aligned (or
at the end), reads exactly the bytes between the cursor and the high-water
mark, in block-sized chunks with a shorter final chunk, and stops with the
cursor at the high-water mark. -/
theorem wVerifyLoop_reads_bounded : ∀ (N : Nat) (bd : BD) (acc : List Nat),
    bd.end_ - bd.pos ≤ N → 0 < bd.blocksize →
    (bd.pos % bd.blocksize = 0 ∨ bd.pos = bd.end_) → bd.pos ≤ bd.end_ →
    bd.end_ ≤ bd.contents.length →
    wVerifyLoop bd bd.blocksize acc
      = ({ bd with pos := bd.end_ },
          .ok (acc ++ listRead bd.contents bd.pos (bd.end_ - bd.pos))) := by
  intro N
  induction N with
  | zero =>
    intro bd acc hN hbs hal hple hlen
    have hpe : bd.pos = bd.end_ := by omega
    rw [wVerifyLoop_stop bd _ acc hpe]
    have hrec : ({ bd with pos := bd.end_ } : BD) = bd := by
      obtain ⟨a, b, c, p, e⟩ := bd
      have hpe2 : p = e := hpe
      rw [hpe2]
    rw [hrec, hpe]
    simp [listRead]
  | succ N ih =>
    intro bd acc hN hbs hal hple hlen
    by_cases hpe : bd.pos = bd.end_
    · rw [wVerifyLoop_stop bd _ acc hpe]
      have hrec : ({ bd with pos := bd.end_ } : BD) = bd := by
        obtain ⟨a, b, c, p, e⟩ := bd
        have hpe2 : p = e := hpe
        rw [hpe2]
      rw [hrec, hpe]
      simp [listRead]
    · have hal2 : bd.pos % bd.blocksize = 0 := by
        rcases hal with h | h
        · exact h
        · exact absurd h hpe
      have hread : bdReadinto bd bd.blocksize
          = ({ bd with pos := bd.pos + min bd.blocksize (bd.end_ - bd.pos) },
              .ok (min bd.blocksize (bd.end_ - bd.pos),
                listRead bd.contents bd.pos (min bd.blocksize (bd.end_ - bd.pos)))) := by
        unfold bdReadinto
        rw [if_neg hpe, if_neg (by omega), if_neg (by simp [hal2]), if_neg (by simp)]
      unfold wVerifyLoop
      rw [hread]
      dsimp only
      rw [dif_pos (by omega)]
      have hih := ih { bd with pos := bd.pos + min bd.blocksize (bd.end_ - bd.pos) }
        (acc ++ listRead bd.contents bd.pos (min bd.blocksize (bd.end_ - bd.pos)))
        (by dsimp only; omega) (by dsimp only; omega)
        (by
          dsimp only
          rcases Nat.le_total bd.blocksize (bd.end_ - bd.pos) with hmin | hmin
          · rw [Nat.min_eq_left hmin, Nat.add_mod_right]
            exact Or.inl hal2
          · rw [Nat.min_eq_right hmin]
            exact Or.inr (by omega))
        (by dsimp only; omega) (by dsimp only; exact hlen)
      dsimp only at hih
      rw [hih]
      rw [List.append_assoc, listRead_append]
      have harith : min bd.blocksize (bd.end_ - bd.pos)
          + (bd.end_ - (bd.pos + min bd.blocksize (bd.end_ - bd.pos)))
          = bd.end_ - bd.pos := by
        omega
      rw [harith]

/-- C10 (amended): `Blockdev.readinto` returns 0 at the high-water mark for
every state; when the cursor is strictly below the mark it transfers exactly
`min buflen (end_ - pos)` bytes from the flash contents, provided the cursor
is block-aligned and the buffer length acceptable (a multiple of the block
size or at most one block) -- otherwise it raises instead of transferring;
consequently the read-back pass of `verify`, which starts at 0 and reads in
block-sized chunks, feeds its digest exactly the `bytes_written = end_` bytes
that were written, with no trailing block padding. -/
theorem C10_readinto_transfers :
    (∀ (st : BD) (L : Nat), st.pos = st.end_ → bdReadinto st L = (st, .ok (0, []))) ∧
    (∀ (st : BD) (L : Nat), st.pos ≠ st.end_ → 0 < st.blocksize →
      st.pos % st.blocksize = 0 → (L % st.blocksize = 0 ∨ L ≤ st.blocksize) →
      bdReadinto st L
        = ({ st with pos := st.pos + min L (st.end_ - st.pos) },
            .ok (min L (st.end_ - st.pos),
              listRead st.contents st.pos (min L (st.end_ - st.pos))))) ∧
    (∀ bd : BD, 0 < bd.blocksize → bd.pos = 0 → bd.end_ ≤ bd.contents.length →
      wVerifyLoop bd bd.blocksize []
        = ({ bd with pos := bd.end_ }, .ok (bd.contents.take bd.end_))) := by
  refine ⟨?_, ?_, ?_⟩
  · intro st L hpe
    unfold bdReadinto
    rw [if_pos hpe]
  · intro st L hpe hbs hal hok
    unfold bdReadinto
    rw [if_neg hpe, if_neg (by omega), if_neg (by simp [hal]),
      if_neg (by rintro ⟨h1, h2⟩; rcases hok with h | h; exact h1 h; omega)]
  · intro bd hbs hp0 hlen
    have h := wVerifyLoop_reads_bounded (bd.end_ - bd.pos) bd []
      (Nat.le_refl _) hbs (Or.inl (by rw [hp0]; simp)) (by omega) hlen
    rw [h, hp0]
    simp [listRead]

/-- C10 as stated is false on the code: `readinto` does not transfer
`min buflen (end_ - pos)` bytes for every device state with `pos` below the
mark; a misaligned cursor makes it raise the alignment `ValueError` instead
(reachable via `seek`).  Here `pos = 1`, `end_ = 3`, blocksize 2: the claim
predicts a transfer of `min 2 2 = 2` bytes, the code raises. -/
theorem C10_readinto_counterexample :
    (bdReadinto ⟨2, 2, [1, 2, 3, 4], 1, 3⟩ 2).2 = .error (.alignPos 0) := by decide

theorem C10_readinto_transfers_witness :
    wVerifyLoop ⟨2, 2, [1, 2, 3, 4], 0, 3⟩ 2 []
      = (⟨2, 2, [1, 2, 3, 4], 3, 3⟩, .ok [1, 2, 3]) :=
  C10_readinto_transfers.2.2 ⟨2, 2, [1, 2, 3, 4], 0, 3⟩ (by decide) (by decide)
    (by decide)

/-- C2: after a successful flush, `BlockDevWriter.close` fails with the
length-mismatch `ValueError` whenever an expected length was supplied
(non-zero) and differs from the bytes written -- regardless of the digest and
of the verify flag, so the length check comes first and before any read-back;
it fails with the digest-mismatch `ValueError` whenever the length check
passes and an expected digest was supplied (non-empty) and differs from the
computed digest, again before any read-back; and every successful close
returns exactly the pair `(bytes_written, digest)`. -/
theorem C2_close_checks (w : Wr) (hflush : (bbFlush w.device).2 = none) :
    (w.length ≠ 0 → w.length ≠ (bbFlush w.device).1.bd.size →
      (wClose w).2 = .error .lengthMismatch) ∧
    ((w.length = 0 ∨ w.length = (bbFlush w.device).1.bd.size) →
      w.sha_check ≠ [] → w.sha_check ≠ (bbFlush w.device).1.sha →
      (wClose w).2 = .error .shaMismatch) ∧
    (∀ r, (wClose w).2 = .ok r →
      r = ((bbFlush w.device).1.bd.size, (bbFlush w.device).1.sha)) := by
  rcases hfl : bbFlush w.device with ⟨dev, o⟩
  rw [hfl] at hflush
  cases o with
  | some e => simp at hflush
  | none =>
    unfold wClose
    rw [hfl]
    dsimp only
    refine ⟨?_, ?_, ?_⟩
    · intro h1 h2
      rw [if_pos ⟨h1, h2⟩]
    · intro hlen hsc hne
      rw [if_neg (by tauto), if_pos ⟨hsc, hne⟩]
    · intro r h
      split at h
      · simp at h
      · split at h
        · simp at h
        · split at h
          · simp at h
          · rename_i w2 val heq
            cases h
            rfl

theorem C2_close_checks_witness :
    (wClose ⟨bbFresh 1 2 [0, 0], [], 5, false, []⟩).2 = .error .lengthMismatch :=
  (C2_close_checks ⟨bbFresh 1 2 [0, 0], [], 5, false, []⟩ (by decide)).1
    (by decide) (by decide)

/-- C8 (amended): whenever `close` returns successfully -- the read-back pass
either succeeded or was not attempted because verification is disabled, and
the length and digest checks passed -- the device cursor is reset to the
start of the partition before returning. -/
theorem C8_close_ok_resets_cursor (w : Wr) (r : Nat × List Nat)
    (h : (wClose w).2 = .ok r) : (wClose w).1.device.bd.pos = 0 := by
  rcases hfl : bbFlush w.device with ⟨dev, o⟩
  unfold wClose at h ⊢
  rw [hfl] at h ⊢
  cases o with
  | some e => simp at h
  | none =>
    dsimp only at h ⊢
    split at h
    · simp at h
    · split at h
      · simp at h
      · rename_i hc1 hc2
        rw [if_neg hc1, if_neg hc2]
        split at h
        · simp at h
        · simp [bdSeek]

theorem C8_close_ok_resets_cursor_witness :
    (wClose ⟨bbFresh 1 2 [0, 0], [], 0, false, []⟩).1.device.bd.pos = 0 :=
  C8_close_ok_resets_cursor ⟨bbFresh 1 2 [0, 0], [], 0, false, []⟩ (0, []) (by decide)

/-- C8 as stated is false on the code: when `close` raises before the verify
step (here a length mismatch with verification disabled), the read-back pass
is not attempted, yet close propagates the error without executing the final
`seek(0)`: the cursor stays at 2 instead of being reset to the start.  The
state is the one reached by a fresh session over a 4-byte device (blocksize
1) after writing two bytes, closed with `expected length = 5`. -/
theorem C8_cursor_counterexample :
    (wClose ⟨⟨⟨1, 4, [7, 7, 0, 0], 2, 2⟩, [7], 0, [7, 7]⟩, [], 5, false, []⟩).2
        = .error .lengthMismatch ∧
    (wClose ⟨⟨⟨1, 4, [7, 7, 0, 0], 2, 2⟩, [7], 0, [7, 7]⟩,
        [], 5, false, []⟩).1.device.bd.pos = 2 := by
  decide

/-- C1: `OTA.close` calls `set_boot` on the new partition only after
`BlockDevWriter.close` has returned successfully: on every close failure
(length mismatch, digest mismatch, read-back verify mismatch, device error)
the boot partition is unchanged, and a `set_boot` the bootloader rejects also
leaves it unchanged; a successful `OTA.close` implies the writer close
succeeded with the same result and only then is the boot pointer moved to the
new partition; and a scope exited with a pending error never runs close at
all (the world and session are untouched). -/
theorem C1_no_commit_on_failure (wd : PartWorld) (s : OTASt) :
    (∀ e : Err, (otaClose wd s).2.2 = .error e →
      (otaClose wd s).1.bootPart = wd.bootPart) ∧
    (∀ r, (otaClose wd s).2.2 = .ok r →
      (wClose s.writer).2 = .ok r ∧ (otaClose wd s).1.bootPart = s.part) ∧
    otaExit true wd s = (wd, s) := by
  rcases hc : wClose s.writer with ⟨w1, res⟩
  unfold otaClose
  rw [hc]
  cases res with
  | error e =>
    exact ⟨fun e2 h => rfl, fun r h => by simp at h, rfl⟩
  | ok ret =>
    unfold set_boot
    by_cases hsb : wd.setBootOk
    · rw [if_pos hsb]
      dsimp only
      refine ⟨fun e2 h => by simp at h, fun r h => ?_, rfl⟩
      cases h
      exact ⟨rfl, rfl⟩
    · rw [if_neg hsb]
      exact ⟨fun e2 h => rfl, fun r h => by simp at h, rfl⟩

theorem C1_no_commit_on_failure_witness :
    (otaClose ⟨0, 0, some 1, true, true, false⟩
        ⟨1, ⟨bbFresh 1 2 [0, 0], [], 5, false, []⟩⟩).1.bootPart = 0 :=
  (C1_no_commit_on_failure ⟨0, 0, some 1, true, true, false⟩
      ⟨1, ⟨bbFresh 1 2 [0, 0], [], 5, false, []⟩⟩).1 .lengthMismatch (by decide)

/-- The default-size `BufferedBlockdev` constructor (as used by
`BlockDevWriter`) produces exactly the fresh state used in the session
theorems. -/
theorem bbInit_default (bs bc : Nat) (c : List Nat) (hbs : 0 < bs) :
    bbInit bs bc c 0 = .ok (bbFresh bs bc c) := by
  unfold bbInit bbFresh
  rw [if_neg (by omega), if_neg (by simp [Nat.mod_self])]
  simp

theorem bbInit_ok_fields (bs bc : Nat) (contents : List Nat) (dev : BB)
    (h : bbInit bs bc contents 0 = .ok dev) : dev = bbFresh bs bc contents := by
  have hbs : 0 < bs := by
    by_contra hb
    push_neg at hb
    have hb0 : bs = 0 := by omega
    subst hb0
    unfold bbInit at h
    simp at h
  rw [bbInit_default bs bc contents hbs] at h
  cases h
  rfl

/-- C6: `OTA.__init__` calls `stop_rollback` (mark the running image valid,
cancelling rollback) strictly before any byte is written to the update
partition: when the bootloader is not OTA capable the constructor aborts with
`OSError(-261)` and the world is untouched, and every successful construction
has already marked the running image valid while its writer holds the update
partition's flash unmodified, with zero bytes written and an empty digest --
so any device write can only happen after the mark, through the returned
session. -/
theorem C6_stop_rollback_before_write (wd : PartWorld) (bs bc : Nat)
    (contents shaArg : List Nat) (lengthArg : Nat) (vf : Bool) :
    (∀ p, wd.nextUpdate = some p → wd.otaCapable = false →
      otaInit wd bs bc contents shaArg lengthArg vf = (wd, .error .otaUnsupported)) ∧
    (∀ wd1 s, otaInit wd bs bc contents shaArg lengthArg vf = (wd1, .ok s) →
      wd1.marked = true ∧ s.writer.device.bd.contents = contents ∧
      s.writer.device.bd.end_ = 0 ∧ s.writer.device.bd.pos = 0 ∧
      s.writer.device.sha = []) := by
  constructor
  · intro p hnu hcap
    unfold otaInit
    rw [hnu]
    dsimp only
    unfold stop_rollback
    rw [hcap]
    rfl
  · intro wd1 s h
    unfold otaInit at h
    rcases hnu : wd.nextUpdate with _ | p
    · rw [hnu] at h
      simp at h
    · rw [hnu] at h
      dsimp only at h
      rcases hsr : stop_rollback wd with ⟨wd2, o2⟩
      rw [hsr] at h
      cases o2 with
      | some e => simp at h
      | none =>
        dsimp only at h
        rcases hwi : wInit bs bc contents shaArg lengthArg vf with e | wr
        · rw [hwi] at h
          simp at h
        · rw [hwi] at h
          dsimp only at h
          have hwd : wd2 = wd1 := congrArg Prod.fst h
          have hs : ({ part := p, writer := wr } : OTASt) = s := by
            have h2 := congrArg Prod.snd h
            simpa using h2
          subst hwd
          subst hs
          have hmark : wd2.marked = true := by
            unfold stop_rollback at hsr
            split at hsr
            · cases hsr
              rfl
            · simp at hsr
          refine ⟨hmark, ?_⟩
          unfold wInit at hwi
          rcases hbi : bbInit bs bc contents 0 with e2 | dev
          · rw [hbi] at hwi
            simp at hwi
          · rw [hbi] at hwi
            dsimp only at hwi
            split at hwi
            · simp at hwi
            · cases hwi
              have hdev := bbInit_ok_fields bs bc contents dev hbi
              subst hdev
              exact ⟨rfl, rfl, rfl, rfl⟩

theorem C6_stop_rollback_before_write_witness :
    otaInit ⟨0, 0, some 1, false, true, false⟩ 1 2 [0, 0] [] 0 true
      = (⟨0, 0, some 1, false, true, false⟩, .error .otaUnsupported) :=
  (C6_stop_rollback_before_write ⟨0, 0, some 1, false, true, false⟩
      1 2 [0, 0] [] 0 true).1 1 rfl rfl

theorem findIdx?_first {α : Type} (p : α → Bool) (d : α) :
    ∀ (l : List α) (i : Nat), i < l.length → p (l.getD i d) = true →
    (∀ j, j < i → p (l.getD j d) = false) → l.findIdx? p = some i := by
  intro l
  induction l with
  | nil =>
    intro i hi hp hfirst
    simp at hi
  | cons x xs ih =>
    intro i hi hp hfirst
    cases i with
    | zero =>
      rw [List.findIdx?_cons]
      simp at hp
      rw [if_pos hp]
    | succ i =>
      have h0 : p x = false := by
        have := hfirst 0 (by omega)
        simpa using this
      rw [List.findIdx?_cons, if_neg (by simp [h0]), List.findIdx?_succ]
      have hr := ih i (by simpa using hi) (by simpa using hp)
        (fun j hj => by
          have := hfirst (j + 1) (by omega)
          simpa using this)
      rw [hr]
      rfl

/-- C7 (amended): `force_rollback` finds the first index `i` of the running
partition in the subtype-sorted update-partition list and sets the partition
at Python index `i - 1` bootable: index `i - 1` for `i ≥ 1` and, by the
negative-index wrap-around, the last list entry for `i = 0`; it fails with
`OSError(-261)` exactly when the running partition does not occur in the list
(in particular when the list is empty).  It does not fail merely because no
alternate partition exists: with a single update partition equal to the
running one the wrap selects the running partition itself (see the
counterexample to the original claim). -/
theorem C7_force_rollback_selection (table : List PInfo) (current : PInfo) :
    (∀ i, i < (otaPartitions table).length →
      (otaPartitions table).getD i ⟨0, 0, 0, 0, 0⟩ = current →
      (∀ j, j < i → (otaPartitions table).getD j ⟨0, 0, 0, 0, 0⟩ ≠ current) →
      force_rollback table current
        = .ok (if i = 0
            then (otaPartitions table).getD ((otaPartitions table).length - 1)
              ⟨0, 0, 0, 0, 0⟩
            else (otaPartitions table).getD (i - 1) ⟨0, 0, 0, 0, 0⟩)) ∧
    (current ∉ otaPartitions table →
      force_rollback table current = .error .otaUnsupported) := by
  constructor
  · intro i hi hp hfirst
    have hidx : (otaPartitions table).findIdx? (fun p => p == current) = some i :=
      findIdx?_first _ ⟨0, 0, 0, 0, 0⟩ (otaPartitions table) i hi
        (by rw [hp]; simp)
        (fun j hj => by rw [beq_eq_false_iff_ne]; exact hfirst j hj)
    unfold force_rollback
    rw [hidx]
    unfold pyPrev
    rfl
  · intro hmem
    have hidx : (otaPartitions table).findIdx? (fun p => p == current) = none := by
      rw [List.findIdx?_eq_none_iff]
      intro x hx
      simp
      intro hxc
      exact hmem (hxc ▸ hx)
    unfold force_rollback
    rw [hidx]

/-- C7 as stated is false on the code: with a single configured update
partition equal to the running one, no alternate partition exists, yet
`force_rollback` succeeds instead of failing -- the Python `parts[i - 1]`
access at `i = 0` wraps to `parts[-1]`, the running partition itself, and
sets it bootable. -/
theorem C7_single_partition_counterexample :
    force_rollback [⟨0, 16, 65536, 4096, 1⟩] ⟨0, 16, 65536, 4096, 1⟩
      = .ok ⟨0, 16, 65536, 4096, 1⟩ := by decide

theorem C7_force_rollback_selection_witness :
    force_rollback [⟨0, 17, 2, 4096, 2⟩, ⟨0, 16, 1, 4096, 1⟩, ⟨0, 18, 3, 4096, 3⟩]
        ⟨0, 17, 2, 4096, 2⟩
      = .ok ⟨0, 16, 1, 4096, 1⟩ := by
  rw [(C7_force_rollback_selection
      [⟨0, 17, 2, 4096, 2⟩, ⟨0, 16, 1, 4096, 1⟩, ⟨0, 18, 3, 4096, 3⟩]
      ⟨0, 17, 2, 4096, 2⟩).1 1 (by decide) (by decide)
    (by
      intro j hj
      have hj0 : j = 0 := by omega
      subst hj0
      decide)]
  decide

end EspOta
